import Mathlib

/-!
Shallow embedding of `journal_monitor.py` (articles-checker).

The program polls a fixed registry of RSS feeds, diffs each feed's entries
against a persisted per-journal list of already-seen titles, persists the
updated store once, and emails a digest of the new articles.

Modelling conventions:
* A feed entry's `title`/`link` attribute is `Option String`; `none` models a
  structurally absent attribute (Python raises `AttributeError` on access).
* The seen store (a JSON object, a Python `dict`) is an association list in
  key insertion order: updating an existing key keeps its position, a fresh
  key is appended at the end, exactly as `dict` assignment behaves.
* The state file is a `FileState`; network fetches are an oracle
  `Nat → Option (List Entry)` per attempt (`none` = the fetch raised), and the
  mail transport is a boolean oracle.  Effects of `fetch_feed` (sleeps and
  attempts) are returned as an explicit trace.
-/

/-- One feed entry as surfaced by the feed parser.  A field is `none` when the
attribute is structurally absent, in which case the Python code's access
raises `AttributeError`. -/
structure Entry where
  title : Option String
  link : Option String
deriving DecidableEq

/-- Python `str.strip()`: drop leading and trailing whitespace characters. -/
def pyStrip (s : String) : String :=
  String.mk (List.rdropWhile Char.isWhitespace
    (List.dropWhile Char.isWhitespace s.data))

/-- The seen-articles store: journal name ↦ ordered list of seen titles,
as an association list in `dict` insertion order. -/
abbrev Store := List (String × List String)

/-- A new-article record `(journal, title, link)` produced during one run. -/
abbrev NewArticle := String × String × String

/-- `d[k]` lookup on the association-list store. -/
def Store.find : Store → String → Option (List String)
  | [], _ => none
  | p :: rest, k => if p.1 = k then some p.2 else Store.find rest k

/-- `d[k]` with default `[]` (the key is always present where the code reads). -/
def Store.getD (s : Store) (k : String) : List String :=
  (Store.find s k).getD []

/-- `d[k] = v`: update in place if the key exists, else append the new key at
the end, matching Python `dict` assignment. -/
def Store.set : Store → String → List String → Store
  | [], k, v => [(k, v)]
  | p :: rest, k, v => if p.1 = k then (k, v) :: rest else p :: Store.set rest k v

/-- The possible states of `seen_articles.json` as seen by one run. -/
inductive FileState
  | absent
  | unreadable
  | corrupt
  | good (s : Store)
deriving DecidableEq

/-- `load_seen_articles` (journal_monitor.py lines 70-79).
`absent`: `os.path.exists` is false, so `{}` is returned.
`good s`: the file opens and parses; the stored mapping is returned.
`corrupt`: `json.load` raises `JSONDecodeError`, which the `except` clause
catches, returning `{}`.
`unreadable`: `open` raises `OSError`; the `except` clause catches only
`json.JSONDecodeError`, so the exception propagates to the caller. -/
def load_seen_articles : FileState → Except Unit Store
  | .absent => .ok []
  | .good s => .ok s
  | .corrupt => .ok []
  | .unreadable => .error ()

/-- `save_seen_articles` (lines 81-87): writes the whole mapping, overwriting
the file; an `IOError` is caught and logged, leaving the previous file state
in place. -/
def save_seen_articles (writeOk : Bool) (file : FileState) (s : Store) :
    FileState :=
  if writeOk then .good s else file

/-- `RETRY_ATTEMPTS` (line 55). -/
def RETRY_ATTEMPTS : Nat := 3

/-- `RETRY_DELAY` (line 56), in seconds. -/
def RETRY_DELAY : Nat := 5

/-- The value and effect trace of one `fetch_feed` call: the entries of the
returned feed object, the sleeps performed (`time.sleep(RETRY_DELAY)`), and
the attempt indices at which `feedparser.parse` was invoked. -/
structure FetchTrace where
  entries : List Entry
  sleeps : List Nat
  attempts : List Nat
deriving DecidableEq

/-- The `for attempt in range(retries)` loop of `fetch_feed` (lines 91-98),
iterating over the remaining attempt indices.  `fetch a = some es` models
`feedparser.parse` returning a feed with entries `es` on attempt `a`;
`fetch a = none` models it raising.  On the last attempt's failure an empty
feed object is returned; otherwise the loop sleeps and retries. -/
def fetchFeedLoop (fetch : Nat → Option (List Entry)) (retries : Nat) :
    List Nat → FetchTrace
  | [] => ⟨[], [], []⟩
  | attempt :: rest =>
    match fetch attempt with
    | some result => ⟨result, [], [attempt]⟩
    | none =>
      if attempt = retries - 1 then ⟨[], [], [attempt]⟩
      else
        let r := fetchFeedLoop fetch retries rest
        ⟨r.entries, RETRY_DELAY :: r.sleeps, attempt :: r.attempts⟩

/-- `fetch_feed` (lines 89-99): retry `feedparser.parse` up to `retries`
times with a fixed delay between attempts; after the last failure return an
empty feed object rather than raising. -/
def fetch_feed (fetch : Nat → Option (List Entry))
    (retries : Nat := RETRY_ATTEMPTS) : FetchTrace :=
  fetchFeedLoop fetch retries (List.range retries)

/-- The inner `for entry in feed.entries` loop of `fetch_new_articles`
(lines 117-127).  For each entry, `entry.title.strip()` and
`entry.link.strip()` are computed; a missing attribute raises
`AttributeError`, which is caught: the entry is skipped.  A title not yet in
`seen_articles[journal]` is recorded as a new article and appended to the
in-memory seen list immediately. -/
def processEntries (journal : String) : Store → List Entry → Store × List NewArticle
  | seen, [] => (seen, [])
  | seen, e :: rest =>
    match e.title, e.link with
    | some t, some l =>
      let articleTitle := pyStrip t
      let articleLink := pyStrip l
      if articleTitle ∈ Store.getD seen journal then
        processEntries journal seen rest
      else
        let seen1 := Store.set seen journal
          (Store.getD seen journal ++ [articleTitle])
        let r := processEntries journal seen1 rest
        (r.1, (journal, articleTitle, articleLink) :: r.2)
    | _, _ => processEntries journal seen rest

/-- One iteration of the outer `for journal, url in JOURNAL_FEEDS.items()`
loop (lines 107-127), given the entry list `entries` that `fetch_feed`
produced for this journal's URL.  An empty entry list skips the journal with
a warning — note this happens before the seen-store key initialisation, so an
absent key stays absent; otherwise the key is initialised to `[]` if absent
and the entries are scanned. -/
def processJournal (journal : String) (entries : List Entry) (seen : Store) :
    Store × List NewArticle :=
  if entries = [] then (seen, [])
  else
    let seen1 := if (Store.find seen journal).isSome then seen
      else Store.set seen journal []
    processEntries journal seen1 entries

/-- The feed-scanning loop of `fetch_new_articles` (lines 106-127) over the
registry (the ordered items of `JOURNAL_FEEDS`); `fetchRes url` is the entry
list the `fetch_feed url` call produced (empty on retry exhaustion or an
empty feed).  Returns the updated store and the accumulated new articles. -/
def scanFeeds (fetchRes : String → List Entry) :
    List (String × String) → Store → Store × List NewArticle
  | [], seen => (seen, [])
  | (journal, url) :: rest, seen =>
    let r1 := processJournal journal (fetchRes url) seen
    let r2 := scanFeeds fetchRes rest r1.1
    (r2.1, r1.2 ++ r2.2)

/-- `fetch_new_articles` (lines 101-130): load the store (an unreadable file
raises through, nothing is caught here), scan every feed, save the updated
store once, and return the run's new articles. -/
def fetch_new_articles (registry : List (String × String))
    (fetchRes : String → List Entry) (writeOk : Bool) (file : FileState) :
    Except Unit (FileState × List NewArticle) :=
  match load_seen_articles file with
  | .error e => .error e
  | .ok seen0 =>
    let r := scanFeeds fetchRes registry seen0
    .ok (save_seen_articles writeOk file r.1, r.2)

/-- `send_email` (lines 132-168), failure behaviour only (the message body
formatting has no bearing on any stated property): an empty list returns
without touching the transport; otherwise the message is sent and a transport
failure is logged and re-raised. -/
def send_email (transportOk : Bool) (news : List NewArticle) :
    Except Unit Unit :=
  if news = [] then .ok ()
  else if transportOk then .ok () else .error ()

/-- `main` (lines 170-180): fetch the new articles, then email them.  The
top-level handler logs and re-raises, so any exception propagates; the state
file is external world state and survives the raise.  (Named `main_run`
because Lean reserves the bare name `main` for entry points.) -/
def main_run (registry : List (String × String)) (fetchRes : String → List Entry)
    (writeOk transportOk : Bool) (file : FileState) :
    FileState × Except Unit (List NewArticle) :=
  match fetch_new_articles registry fetchRes writeOk file with
  | .error e => (file, .error e)
  | .ok (file1, news) =>
    match send_email transportOk news with
    | .error e => (file1, .error e)
    | .ok _ => (file1, .ok news)

/-- Titles of the run's new-article records belonging to one journal, in
report order. -/
def newTitlesFor (journal : String) (news : List NewArticle) : List String :=
  (news.filter (fun r => decide (r.1 = journal))).map (fun r => r.2.1)

/-- The record a well-formed entry would contribute for journal `j`
(`none` for a malformed entry); used to state the within-feed ordering
property: the produced records are a subsequence of this projection. -/
def entryKey (j : String) (e : Entry) : Option NewArticle :=
  match e.title, e.link with
  | some t, some l => some (j, pyStrip t, pyStrip l)
  | _, _ => none

/-! ### Library facts about `pyStrip` and `Store` -/

theorem stripped_dropWhile {α : Type} (p : α → Bool) (l : List α) :
    List.dropWhile p (List.rdropWhile p (List.dropWhile p l)) =
      List.rdropWhile p (List.dropWhile p l) := by
  rcases hn : List.rdropWhile p (List.dropWhile p l) with _ | ⟨a, n⟩
  · simp
  · have hpre := List.rdropWhile_prefix p (List.dropWhile p l)
    rw [hn] at hpre
    obtain ⟨t, ht⟩ := hpre
    have hlen : 0 < (List.dropWhile p l).length := by
      rw [← ht]; simp
    have hget := List.dropWhile_get_zero_not p l hlen
    have hhead : (List.dropWhile p l).get ⟨0, hlen⟩ = a := by
      rw [List.get_of_eq ht.symm ⟨0, hlen⟩]
      rfl
    rw [hhead] at hget
    simp [List.dropWhile_cons, hget]

theorem pyStrip_idem (s : String) : pyStrip (pyStrip s) = pyStrip s := by
  show String.mk (List.rdropWhile Char.isWhitespace
      (List.dropWhile Char.isWhitespace
        (List.rdropWhile Char.isWhitespace
          (List.dropWhile Char.isWhitespace s.data)))) = pyStrip s
  rw [stripped_dropWhile, List.rdropWhile_idempotent]
  rfl

theorem Store.find_set_self (s : Store) (k : String) (v : List String) :
    Store.find (Store.set s k v) k = some v := by
  induction s with
  | nil => simp [Store.set, Store.find]
  | cons p rest ih =>
    by_cases h : p.1 = k
    · simp [Store.set, Store.find, h]
    · simp [Store.set, Store.find, h, ih]

theorem Store.find_set_ne (s : Store) (k k' : String) (v : List String)
    (h : k' ≠ k) : Store.find (Store.set s k v) k' = Store.find s k' := by
  induction s with
  | nil => simp [Store.set, Store.find, Ne.symm h]
  | cons p rest ih =>
    by_cases hp : p.1 = k
    · simp [Store.set, Store.find, hp, Ne.symm h]
    · simp [Store.set, Store.find, hp, ih]

theorem Store.getD_set_self (s : Store) (k : String) (v : List String) :
    Store.getD (Store.set s k v) k = v := by
  simp [Store.getD, Store.find_set_self]

theorem Store.getD_set_ne (s : Store) (k k' : String) (v : List String)
    (h : k' ≠ k) : Store.getD (Store.set s k v) k' = Store.getD s k' := by
  simp [Store.getD, Store.find_set_ne s k k' v h]

theorem Store.isSome_find_set (s : Store) (k : String) (v : List String) :
    (Store.find (Store.set s k v) k).isSome := by
  simp [Store.find_set_self]

theorem Store.getD_of_find_none (s : Store) (k : String)
    (h : Store.find s k = none) : Store.getD s k = [] := by
  simp [Store.getD, h]

theorem Store.find_eq_getD_of_isSome (s : Store) (k : String)
    (h : (Store.find s k).isSome) :
    Store.find s k = some (Store.getD s k) := by
  rcases Option.isSome_iff_exists.mp h with ⟨v, hv⟩
  simp [Store.getD, hv]

/-! ### Facts about the inner entry loop (`processEntries`) -/

theorem Entry.title_mk (ot ol : Option String) :
    Entry.title ⟨ot, ol⟩ = ot := rfl

theorem Entry.link_mk (ot ol : Option String) :
    Entry.link ⟨ot, ol⟩ = ol := rfl

theorem processEntries_find_ne (j k : String) (hk : k ≠ j) (es : List Entry) :
    ∀ seen : Store,
      Store.find (processEntries j seen es).1 k = Store.find seen k := by
  induction es with
  | nil => intro seen; rfl
  | cons e rest ih =>
    intro seen
    rcases e with ⟨ot, ol⟩
    rcases ot with _ | t
    · simpa [processEntries] using ih seen
    · rcases ol with _ | l
      · simpa [processEntries] using ih seen
      · by_cases hmem : pyStrip t ∈ Store.getD seen j
        · simpa [processEntries, hmem] using ih seen
        · simp only [processEntries, Entry.title_mk, Entry.link_mk]
          rw [if_neg hmem]
          rw [ih]
          exact Store.find_set_ne seen j k _ hk

theorem processEntries_getD_ne (j k : String) (hk : k ≠ j) (es : List Entry)
    (seen : Store) :
    Store.getD (processEntries j seen es).1 k = Store.getD seen k := by
  simp [Store.getD, processEntries_find_ne j k hk es seen]

theorem processEntries_journal_eq (j : String) (es : List Entry) :
    ∀ seen r, r ∈ (processEntries j seen es).2 → r.1 = j := by
  induction es with
  | nil => intro seen r hr; simp [processEntries] at hr
  | cons e rest ih =>
    intro seen r hr
    rcases e with ⟨ot, ol⟩
    rcases ot with _ | t
    · exact ih seen r (by simpa [processEntries] using hr)
    · rcases ol with _ | l
      · exact ih seen r (by simpa [processEntries] using hr)
      · by_cases hmem : pyStrip t ∈ Store.getD seen j
        · exact ih seen r (by simpa [processEntries, hmem] using hr)
        · simp only [processEntries, Entry.title_mk, Entry.link_mk] at hr
          rw [if_neg hmem] at hr
          rcases List.mem_cons.mp hr with h | h
          · subst h; rfl
          · exact ih _ r h

theorem processEntries_getD_append (j : String) (es : List Entry) :
    ∀ seen, Store.getD (processEntries j seen es).1 j =
      Store.getD seen j ++ (processEntries j seen es).2.map (fun r => r.2.1) := by
  induction es with
  | nil => intro seen; simp [processEntries]
  | cons e rest ih =>
    intro seen
    rcases e with ⟨ot, ol⟩
    rcases ot with _ | t
    · simpa [processEntries] using ih seen
    · rcases ol with _ | l
      · simpa [processEntries] using ih seen
      · by_cases hmem : pyStrip t ∈ Store.getD seen j
        · simpa [processEntries, hmem] using ih seen
        · simp only [processEntries, Entry.title_mk, Entry.link_mk]
          rw [if_neg hmem]
          simp only [List.map_cons]
          rw [ih, Store.getD_set_self]
          simp

theorem processEntries_isSome (j : String) (es : List Entry) :
    ∀ seen, (Store.find seen j).isSome →
      (Store.find (processEntries j seen es).1 j).isSome := by
  induction es with
  | nil => intro seen h; exact h
  | cons e rest ih =>
    intro seen h
    rcases e with ⟨ot, ol⟩
    rcases ot with _ | t
    · simpa [processEntries] using ih seen h
    · rcases ol with _ | l
      · simpa [processEntries] using ih seen h
      · by_cases hmem : pyStrip t ∈ Store.getD seen j
        · simpa [processEntries, hmem] using ih seen h
        · simp only [processEntries, Entry.title_mk, Entry.link_mk]
          rw [if_neg hmem]
          exact ih _ (Store.isSome_find_set seen j _)

theorem processEntries_seen_not_new (j : String) (es : List Entry) :
    ∀ seen t, t ∈ Store.getD seen j →
      t ∉ (processEntries j seen es).2.map (fun r => r.2.1) := by
  induction es with
  | nil => intro seen t _ hc; simp [processEntries] at hc
  | cons e rest ih =>
    intro seen t ht
    rcases e with ⟨ot, ol⟩
    rcases ot with _ | t0
    · simpa [processEntries] using ih seen t ht
    · rcases ol with _ | l0
      · simpa [processEntries] using ih seen t ht
      · by_cases hmem : pyStrip t0 ∈ Store.getD seen j
        · simpa [processEntries, hmem] using ih seen t ht
        · simp only [processEntries, Entry.title_mk, Entry.link_mk]
          rw [if_neg hmem]
          simp only [List.map_cons, List.mem_cons, not_or]
          constructor
          · rintro rfl; exact hmem ht
          · exact ih _ t (by
              rw [Store.getD_set_self]
              exact List.mem_append_left _ ht)

theorem processEntries_titles_nodup (j : String) (es : List Entry) :
    ∀ seen, ((processEntries j seen es).2.map (fun r => r.2.1)).Nodup := by
  induction es with
  | nil => intro seen; simp [processEntries]
  | cons e rest ih =>
    intro seen
    rcases e with ⟨ot, ol⟩
    rcases ot with _ | t
    · simpa [processEntries] using ih seen
    · rcases ol with _ | l
      · simpa [processEntries] using ih seen
      · by_cases hmem : pyStrip t ∈ Store.getD seen j
        · simpa [processEntries, hmem] using ih seen
        · simp only [processEntries, Entry.title_mk, Entry.link_mk]
          rw [if_neg hmem]
          simp only [List.map_cons, List.nodup_cons]
          refine ⟨?_, ih _⟩
          exact processEntries_seen_not_new j rest _ (pyStrip t) (by
            rw [Store.getD_set_self]
            exact List.mem_append_right _ (List.mem_singleton.mpr rfl))

theorem processEntries_complete (j : String) (es : List Entry) :
    ∀ seen e t l, e ∈ es → e.title = some t → e.link = some l →
      pyStrip t ∈ Store.getD (processEntries j seen es).1 j := by
  induction es with
  | nil => intro seen e t l he _ _; cases he
  | cons e0 rest ih =>
    intro seen e t l he ht hl
    rcases List.mem_cons.mp he with rfl | hrest
    · rcases e with ⟨ot, ol⟩
      rw [Entry.title_mk] at ht
      rw [Entry.link_mk] at hl
      subst ht; subst hl
      by_cases hmem : pyStrip t ∈ Store.getD seen j
      · simp only [processEntries, Entry.title_mk, Entry.link_mk]
        rw [if_pos hmem, processEntries_getD_append]
        exact List.mem_append_left _ hmem
      · simp only [processEntries, Entry.title_mk, Entry.link_mk]
        rw [if_neg hmem]
        show pyStrip t ∈ Store.getD (processEntries j _ rest).1 j
        rw [processEntries_getD_append]
        refine List.mem_append_left _ ?_
        rw [Store.getD_set_self]
        exact List.mem_append_right _ (List.mem_singleton.mpr rfl)
    · rcases e0 with ⟨ot0, ol0⟩
      rcases ot0 with _ | t0
      · simpa [processEntries] using ih seen e t l hrest ht hl
      · rcases ol0 with _ | l0
        · simpa [processEntries] using ih seen e t l hrest ht hl
        · by_cases hmem : pyStrip t0 ∈ Store.getD seen j
          · simpa [processEntries, hmem] using ih seen e t l hrest ht hl
          · simp only [processEntries, Entry.title_mk, Entry.link_mk]
            rw [if_neg hmem]
            exact ih _ e t l hrest ht hl

theorem processEntries_all_seen (j : String) (es : List Entry) :
    ∀ seen, (∀ e ∈ es, ∀ t l, e.title = some t → e.link = some l →
        pyStrip t ∈ Store.getD seen j) →
      processEntries j seen es = (seen, []) := by
  induction es with
  | nil => intro seen _; rfl
  | cons e rest ih =>
    intro seen h
    rcases e with ⟨ot, ol⟩
    rcases ot with _ | t
    · simpa [processEntries] using
        ih seen (fun e' he' => h e' (List.mem_cons_of_mem _ he'))
    · rcases ol with _ | l
      · simpa [processEntries] using
          ih seen (fun e' he' => h e' (List.mem_cons_of_mem _ he'))
      · have hmem : pyStrip t ∈ Store.getD seen j :=
          h ⟨some t, some l⟩ (List.mem_cons_self _ _) t l rfl rfl
        simp only [processEntries, Entry.title_mk, Entry.link_mk]
        rw [if_pos hmem]
        exact ih seen (fun e' he' => h e' (List.mem_cons_of_mem _ he'))

theorem processEntries_stripped (j : String) (es : List Entry) :
    ∀ seen r, r ∈ (processEntries j seen es).2 →
      pyStrip r.2.1 = r.2.1 ∧ pyStrip r.2.2 = r.2.2 := by
  induction es with
  | nil => intro seen r hr; simp [processEntries] at hr
  | cons e rest ih =>
    intro seen r hr
    rcases e with ⟨ot, ol⟩
    rcases ot with _ | t
    · exact ih seen r (by simpa [processEntries] using hr)
    · rcases ol with _ | l
      · exact ih seen r (by simpa [processEntries] using hr)
      · by_cases hmem : pyStrip t ∈ Store.getD seen j
        · exact ih seen r (by simpa [processEntries, hmem] using hr)
        · simp only [processEntries, Entry.title_mk, Entry.link_mk] at hr
          rw [if_neg hmem] at hr
          rcases List.mem_cons.mp hr with h | h
          · subst h
            exact ⟨pyStrip_idem t, pyStrip_idem l⟩
          · exact ih _ r h

theorem processEntries_stored_stripped (j k : String) (es : List Entry)
    (seen : Store) (h : ∀ t ∈ Store.getD seen k, pyStrip t = t) :
    ∀ t ∈ Store.getD (processEntries j seen es).1 k, pyStrip t = t := by
  by_cases hk : k = j
  · subst hk
    intro t htmem
    rw [processEntries_getD_append] at htmem
    rcases List.mem_append.mp htmem with hmem | hmem
    · exact h t hmem
    · rcases List.mem_map.mp hmem with ⟨r, hr, hrt⟩
      rw [← hrt]
      exact (processEntries_stripped k es seen r hr).1
  · intro t htmem
    rw [processEntries_getD_ne j k hk es seen] at htmem
    exact h t htmem

theorem processEntries_sublist (j : String) (es : List Entry) :
    ∀ seen, List.Sublist (processEntries j seen es).2
      (es.filterMap (entryKey j)) := by
  induction es with
  | nil => intro seen; simp [processEntries]
  | cons e rest ih =>
    intro seen
    rcases e with ⟨ot, ol⟩
    rcases ot with _ | t
    · simpa [processEntries, List.filterMap_cons, entryKey] using ih seen
    · rcases ol with _ | l
      · simpa [processEntries, List.filterMap_cons, entryKey] using ih seen
      · by_cases hmem : pyStrip t ∈ Store.getD seen j
        · simp only [processEntries, Entry.title_mk, Entry.link_mk,
            List.filterMap_cons, entryKey]
          rw [if_pos hmem]
          exact List.Sublist.cons _ (ih seen)
        · simp only [processEntries, Entry.title_mk, Entry.link_mk,
            List.filterMap_cons, entryKey]
          rw [if_neg hmem]
          exact List.Sublist.cons₂ _ (ih _)

/-! ### Facts about one journal iteration (`processJournal`) -/

theorem processJournal_nil (j : String) (seen : Store) :
    processJournal j [] seen = (seen, []) := rfl

theorem processJournal_find_ne (j k : String) (hk : k ≠ j) (es : List Entry)
    (seen : Store) :
    Store.find (processJournal j es seen).1 k = Store.find seen k := by
  by_cases hes : es = []
  · subst hes; rfl
  · simp only [processJournal, if_neg hes]
    by_cases hs : (Store.find seen j).isSome
    · rw [if_pos hs, processEntries_find_ne j k hk es seen]
    · rw [if_neg hs, processEntries_find_ne j k hk es _,
        Store.find_set_ne seen j k _ hk]

theorem processJournal_getD_ne (j k : String) (hk : k ≠ j) (es : List Entry)
    (seen : Store) :
    Store.getD (processJournal j es seen).1 k = Store.getD seen k := by
  simp [Store.getD, processJournal_find_ne j k hk es seen]

theorem processJournal_getD_append (j : String) (es : List Entry)
    (seen : Store) :
    Store.getD (processJournal j es seen).1 j = Store.getD seen j ++
      (processJournal j es seen).2.map (fun r => r.2.1) := by
  by_cases hes : es = []
  · subst hes; simp [processJournal]
  · simp only [processJournal, if_neg hes]
    by_cases hs : (Store.find seen j).isSome
    · rw [if_pos hs, processEntries_getD_append]
    · rw [if_neg hs, processEntries_getD_append, Store.getD_set_self,
        Store.getD_of_find_none seen j (Option.not_isSome_iff_eq_none.mp hs)]

theorem processJournal_isSome (j : String) (es : List Entry) (seen : Store)
    (h : (Store.find seen j).isSome) :
    (Store.find (processJournal j es seen).1 j).isSome := by
  by_cases hes : es = []
  · subst hes; exact h
  · simp only [processJournal, if_neg hes, if_pos h]
    exact processEntries_isSome j es seen h

theorem processJournal_isSome_of_ne_nil (j : String) (es : List Entry)
    (seen : Store) (hes : es ≠ []) :
    (Store.find (processJournal j es seen).1 j).isSome := by
  simp only [processJournal, if_neg hes]
  by_cases hs : (Store.find seen j).isSome
  · rw [if_pos hs]
    exact processEntries_isSome j es seen hs
  · rw [if_neg hs]
    exact processEntries_isSome j es _ (Store.isSome_find_set seen j [])

theorem processJournal_journal_eq (j : String) (es : List Entry) (seen : Store)
    (r : NewArticle) (hr : r ∈ (processJournal j es seen).2) : r.1 = j := by
  by_cases hes : es = []
  · subst hes; simp [processJournal] at hr
  · simp only [processJournal, if_neg hes] at hr
    exact processEntries_journal_eq j es _ r hr

theorem processJournal_seen_not_new (j : String) (es : List Entry)
    (seen : Store) (t : String) (ht : t ∈ Store.getD seen j) :
    t ∉ (processJournal j es seen).2.map (fun r => r.2.1) := by
  by_cases hes : es = []
  · subst hes; simp [processJournal]
  · simp only [processJournal, if_neg hes]
    by_cases hs : (Store.find seen j).isSome
    · rw [if_pos hs]
      exact processEntries_seen_not_new j es seen t ht
    · rw [if_neg hs]
      rw [Store.getD_of_find_none seen j (Option.not_isSome_iff_eq_none.mp hs)]
        at ht
      cases ht

theorem processJournal_titles_nodup (j : String) (es : List Entry)
    (seen : Store) :
    ((processJournal j es seen).2.map (fun r => r.2.1)).Nodup := by
  by_cases hes : es = []
  · subst hes; simp [processJournal]
  · simp only [processJournal, if_neg hes]
    split
    · exact processEntries_titles_nodup j es seen
    · exact processEntries_titles_nodup j es _

theorem processJournal_complete (j : String) (es : List Entry) (seen : Store)
    (e : Entry) (t l : String) (he : e ∈ es) (ht : e.title = some t)
    (hl : e.link = some l) :
    pyStrip t ∈ Store.getD (processJournal j es seen).1 j := by
  have hes : es ≠ [] := by rintro rfl; cases he
  simp only [processJournal, if_neg hes]
  split
  · exact processEntries_complete j es seen e t l he ht hl
  · exact processEntries_complete j es _ e t l he ht hl

theorem processJournal_all_seen (j : String) (es : List Entry) (seen : Store)
    (hs : (Store.find seen j).isSome)
    (h : ∀ e ∈ es, ∀ t l, e.title = some t → e.link = some l →
      pyStrip t ∈ Store.getD seen j) :
    processJournal j es seen = (seen, []) := by
  by_cases hes : es = []
  · subst hes; rfl
  · simp only [processJournal, if_neg hes, if_pos hs]
    exact processEntries_all_seen j es seen h

theorem processJournal_stripped (j : String) (es : List Entry) (seen : Store)
    (r : NewArticle) (hr : r ∈ (processJournal j es seen).2) :
    pyStrip r.2.1 = r.2.1 ∧ pyStrip r.2.2 = r.2.2 := by
  by_cases hes : es = []
  · subst hes; simp [processJournal] at hr
  · simp only [processJournal, if_neg hes] at hr
    split at hr
    · exact processEntries_stripped j es seen r hr
    · exact processEntries_stripped j es _ r hr

theorem processJournal_stored_stripped (j k : String) (es : List Entry)
    (seen : Store) (h : ∀ t ∈ Store.getD seen k, pyStrip t = t) :
    ∀ t ∈ Store.getD (processJournal j es seen).1 k, pyStrip t = t := by
  by_cases hes : es = []
  · subst hes; exact h
  · simp only [processJournal, if_neg hes]
    split
    · exact processEntries_stored_stripped j k es seen h
    · refine processEntries_stored_stripped j k es _ ?_
      by_cases hk : k = j
      · subst hk
        rw [Store.getD_set_self]
        intro t htm; cases htm
      · rw [Store.getD_set_ne seen j k [] hk]
        exact h

theorem processJournal_getD_mono (j k : String) (es : List Entry)
    (seen : Store) (t : String) (ht : t ∈ Store.getD seen k) :
    t ∈ Store.getD (processJournal j es seen).1 k := by
  by_cases hk : k = j
  · subst hk
    rw [processJournal_getD_append]
    exact List.mem_append_left _ ht
  · rw [processJournal_getD_ne j k hk es seen]
    exact ht

/-! ### Facts about `newTitlesFor` -/

theorem newTitlesFor_append (j : String) (n1 n2 : List NewArticle) :
    newTitlesFor j (n1 ++ n2) = newTitlesFor j n1 ++ newTitlesFor j n2 := by
  simp [newTitlesFor]

theorem newTitlesFor_eq_nil (j j' : String) (n : List NewArticle)
    (hj : j' ≠ j) (h : ∀ r ∈ n, r.1 = j') :
    newTitlesFor j n = [] := by
  simp only [newTitlesFor, List.map_eq_nil_iff, List.filter_eq_nil_iff]
  intro r hr
  simp [h r hr, hj]

theorem newTitlesFor_eq_map (j : String) (n : List NewArticle)
    (h : ∀ r ∈ n, r.1 = j) :
    newTitlesFor j n = n.map (fun r => r.2.1) := by
  simp only [newTitlesFor]
  congr 1
  rw [List.filter_eq_self]
  intro r hr
  simp [h r hr]

/-! ### Facts about the whole feed scan (`scanFeeds`) -/

theorem processJournal_isSome_any (j k : String) (es : List Entry)
    (seen : Store) (h : (Store.find seen k).isSome) :
    (Store.find (processJournal j es seen).1 k).isSome := by
  by_cases hk : k = j
  · subst hk; exact processJournal_isSome k es seen h
  · rw [processJournal_find_ne j k hk es seen]; exact h

theorem scanFeeds_getD_append (f : String → List Entry)
    (reg : List (String × String)) :
    ∀ seen j, Store.getD (scanFeeds f reg seen).1 j =
      Store.getD seen j ++ newTitlesFor j (scanFeeds f reg seen).2 := by
  induction reg with
  | nil => intro seen j; simp [scanFeeds, newTitlesFor]
  | cons p rest ih =>
    rcases p with ⟨j', u⟩
    intro seen j
    simp only [scanFeeds]
    rw [newTitlesFor_append]
    by_cases hj : j' = j
    · subst hj
      rw [ih, processJournal_getD_append,
        newTitlesFor_eq_map j' _
          (fun r hr => processJournal_journal_eq j' (f u) seen r hr),
        List.append_assoc]
    · rw [ih, processJournal_getD_ne j' j (Ne.symm hj) (f u) seen,
        newTitlesFor_eq_nil j j' _ hj
          (fun r hr => processJournal_journal_eq j' (f u) seen r hr)]
      simp

theorem scanFeeds_isSome (f : String → List Entry)
    (reg : List (String × String)) :
    ∀ seen j, (Store.find seen j).isSome →
      (Store.find (scanFeeds f reg seen).1 j).isSome := by
  induction reg with
  | nil => intro seen j h; exact h
  | cons p rest ih =>
    rcases p with ⟨j', u⟩
    intro seen j h
    simp only [scanFeeds]
    exact ih _ j (processJournal_isSome_any j' j (f u) seen h)

theorem scanFeeds_getD_mono (f : String → List Entry)
    (reg : List (String × String)) :
    ∀ seen k t, t ∈ Store.getD seen k →
      t ∈ Store.getD (scanFeeds f reg seen).1 k := by
  induction reg with
  | nil => intro seen k t ht; exact ht
  | cons p rest ih =>
    rcases p with ⟨j', u⟩
    intro seen k t ht
    simp only [scanFeeds]
    exact ih _ k t (processJournal_getD_mono j' k (f u) seen t ht)

theorem scanFeeds_seen_not_new (f : String → List Entry)
    (reg : List (String × String)) :
    ∀ seen j t, t ∈ Store.getD seen j →
      t ∉ newTitlesFor j (scanFeeds f reg seen).2 := by
  induction reg with
  | nil => intro seen j t _; simp [scanFeeds, newTitlesFor]
  | cons p rest ih =>
    rcases p with ⟨j', u⟩
    intro seen j t ht
    simp only [scanFeeds]
    rw [newTitlesFor_append]
    intro hc
    rcases List.mem_append.mp hc with hc1 | hc2
    · by_cases hj : j' = j
      · subst hj
        rw [newTitlesFor_eq_map j' _
            (fun r hr => processJournal_journal_eq j' (f u) seen r hr)] at hc1
        exact processJournal_seen_not_new j' (f u) seen t ht hc1
      · rw [newTitlesFor_eq_nil j j' _ hj
            (fun r hr => processJournal_journal_eq j' (f u) seen r hr)] at hc1
        cases hc1
    · exact ih _ j t (processJournal_getD_mono j' j (f u) seen t ht) hc2

theorem scanFeeds_titles_nodup (f : String → List Entry)
    (reg : List (String × String)) :
    ∀ seen j, (newTitlesFor j (scanFeeds f reg seen).2).Nodup := by
  induction reg with
  | nil => intro seen j; simp [scanFeeds, newTitlesFor]
  | cons p rest ih =>
    rcases p with ⟨j', u⟩
    intro seen j
    simp only [scanFeeds]
    rw [newTitlesFor_append]
    by_cases hj : j' = j
    · subst hj
      refine List.Nodup.append ?_ (ih _ j') ?_
      · rw [newTitlesFor_eq_map j' _
            (fun r hr => processJournal_journal_eq j' (f u) seen r hr)]
        exact processJournal_titles_nodup j' (f u) seen
      · intro t ht1 ht2
        rw [newTitlesFor_eq_map j' _
            (fun r hr => processJournal_journal_eq j' (f u) seen r hr)] at ht1
        have hmem : t ∈ Store.getD (processJournal j' (f u) seen).1 j' := by
          rw [processJournal_getD_append]
          exact List.mem_append_right _ ht1
        exact scanFeeds_seen_not_new f rest _ j' t hmem ht2
    · rw [newTitlesFor_eq_nil j j' _ hj
          (fun r hr => processJournal_journal_eq j' (f u) seen r hr)]
      simpa using ih _ j

theorem scanFeeds_complete (f : String → List Entry)
    (reg : List (String × String)) :
    ∀ seen j u e t l, (j, u) ∈ reg → e ∈ f u → e.title = some t →
      e.link = some l → pyStrip t ∈ Store.getD (scanFeeds f reg seen).1 j := by
  induction reg with
  | nil => intro seen j u e t l hreg; cases hreg
  | cons p rest ih =>
    rcases p with ⟨j', u'⟩
    intro seen j u e t l hreg he ht hl
    simp only [scanFeeds]
    rcases List.mem_cons.mp hreg with heq | hrest
    · rw [Prod.ext_iff] at heq
      obtain ⟨h1, h2⟩ := heq
      simp only at h1 h2
      subst h1; subst h2
      exact scanFeeds_getD_mono f rest _ j (pyStrip t)
        (processJournal_complete j (f u) seen e t l he ht hl)
    · exact ih _ j u e t l hrest he ht hl

theorem scanFeeds_isSome_of_mem (f : String → List Entry)
    (reg : List (String × String)) :
    ∀ seen j u, (j, u) ∈ reg → f u ≠ [] →
      (Store.find (scanFeeds f reg seen).1 j).isSome := by
  induction reg with
  | nil => intro seen j u hreg; cases hreg
  | cons p rest ih =>
    rcases p with ⟨j', u'⟩
    intro seen j u hreg hne
    simp only [scanFeeds]
    rcases List.mem_cons.mp hreg with heq | hrest
    · rw [Prod.ext_iff] at heq
      obtain ⟨h1, h2⟩ := heq
      simp only at h1 h2
      subst h1; subst h2
      exact scanFeeds_isSome f rest _ j
        (processJournal_isSome_of_ne_nil j (f u) seen hne)
    · exact ih _ j u hrest hne

theorem scanFeeds_stable (f : String → List Entry)
    (reg : List (String × String)) :
    ∀ seen, (∀ j u, (j, u) ∈ reg → f u ≠ [] → (Store.find seen j).isSome) →
      (∀ j u e t l, (j, u) ∈ reg → e ∈ f u → e.title = some t →
        e.link = some l → pyStrip t ∈ Store.getD seen j) →
      scanFeeds f reg seen = (seen, []) := by
  induction reg with
  | nil => intro seen _ _; rfl
  | cons p rest ih =>
    rcases p with ⟨j', u'⟩
    intro seen h1 h2
    have hpj : processJournal j' (f u') seen = (seen, []) := by
      by_cases hne : f u' = []
      · rw [hne]; rfl
      · exact processJournal_all_seen j' (f u') seen
          (h1 j' u' (List.mem_cons_self _ _) hne)
          (fun e he t l ht hl =>
            h2 j' u' e t l (List.mem_cons_self _ _) he ht hl)
    simp only [scanFeeds, hpj]
    rw [ih seen (fun j u hm => h1 j u (List.mem_cons_of_mem _ hm))
      (fun j u e t l hm => h2 j u e t l (List.mem_cons_of_mem _ hm))]
    rfl

theorem scanFeeds_idem (f : String → List Entry)
    (reg : List (String × String)) (s0 : Store) :
    scanFeeds f reg (scanFeeds f reg s0).1 = ((scanFeeds f reg s0).1, []) :=
  scanFeeds_stable f reg _
    (fun j u hm hne => scanFeeds_isSome_of_mem f reg s0 j u hm hne)
    (fun j u e t l hm he ht hl =>
      scanFeeds_complete f reg s0 j u e t l hm he ht hl)

theorem scanFeeds_append (f : String → List Entry)
    (pre post : List (String × String)) :
    ∀ seen, scanFeeds f (pre ++ post) seen =
      ((scanFeeds f post (scanFeeds f pre seen).1).1,
        (scanFeeds f pre seen).2 ++
          (scanFeeds f post (scanFeeds f pre seen).1).2) := by
  induction pre with
  | nil => intro seen; simp [scanFeeds]
  | cons p rest ih =>
    rcases p with ⟨j', u⟩
    intro seen
    rw [List.cons_append]
    simp only [scanFeeds]
    rw [ih]
    simp [List.append_assoc]

theorem scanFeeds_skip_empty (f : String → List Entry)
    (pre post : List (String × String)) (j u : String) (hu : f u = []) :
    ∀ seen, scanFeeds f (pre ++ (j, u) :: post) seen =
      scanFeeds f (pre ++ post) seen := by
  induction pre with
  | nil =>
    intro seen
    simp only [List.nil_append, scanFeeds, hu, processJournal_nil]
  | cons p rest ih =>
    rcases p with ⟨j', u'⟩
    intro seen
    rw [List.cons_append, List.cons_append]
    simp only [scanFeeds]
    rw [ih]

theorem scanFeeds_find_none (f : String → List Entry)
    (reg : List (String × String)) :
    ∀ seen j, (∀ p ∈ reg, p.1 = j → f p.2 = []) → Store.find seen j = none →
      Store.find (scanFeeds f reg seen).1 j = none := by
  induction reg with
  | nil => intro seen j _ h0; exact h0
  | cons p rest ih =>
    rcases p with ⟨j', u⟩
    intro seen j hreg h0
    simp only [scanFeeds]
    apply ih _ j (fun p hp => hreg p (List.mem_cons_of_mem _ hp))
    by_cases hj : j' = j
    · subst hj
      rw [hreg (j', u) (List.mem_cons_self _ _) rfl, processJournal_nil]
      exact h0
    · rw [processJournal_find_ne j' j (Ne.symm hj) (f u) seen]
      exact h0

theorem scanFeeds_stored_stripped (f : String → List Entry)
    (reg : List (String × String)) :
    ∀ seen, (∀ k t, t ∈ Store.getD seen k → pyStrip t = t) →
      ∀ k t, t ∈ Store.getD (scanFeeds f reg seen).1 k → pyStrip t = t := by
  induction reg with
  | nil => intro seen h k t ht; exact h k t ht
  | cons p rest ih =>
    rcases p with ⟨j', u⟩
    intro seen h k t ht
    simp only [scanFeeds] at ht
    exact ih _
      (fun k' t' ht' => processJournal_stored_stripped j' k' (f u) seen
        (fun t0 ht0 => h k' t0 ht0) t' ht') k t ht

theorem scanFeeds_reported_stripped (f : String → List Entry)
    (reg : List (String × String)) :
    ∀ seen r, r ∈ (scanFeeds f reg seen).2 →
      pyStrip r.2.1 = r.2.1 ∧ pyStrip r.2.2 = r.2.2 := by
  induction reg with
  | nil => intro seen r hr; simp [scanFeeds] at hr
  | cons p rest ih =>
    rcases p with ⟨j', u⟩
    intro seen r hr
    simp only [scanFeeds] at hr
    rcases List.mem_append.mp hr with h1 | h2
    · exact processJournal_stripped j' (f u) seen r h1
    · exact ih _ r h2

/-! ### Malformed-entry skipping and retry exhaustion -/

theorem processEntries_skip_malformed (j : String) (bad : Entry)
    (hbad : bad.title = none ∨ bad.link = none) (pre post : List Entry) :
    ∀ seen, processEntries j seen (pre ++ bad :: post) =
      processEntries j seen (pre ++ post) := by
  induction pre with
  | nil =>
    intro seen
    rcases bad with ⟨ot, ol⟩
    rcases hbad with h | h
    · rw [Entry.title_mk] at h; subst h
      simp [processEntries]
    · rw [Entry.link_mk] at h; subst h
      rcases ot with _ | t <;> simp [processEntries]
  | cons e rest ih =>
    intro seen
    rcases e with ⟨ot, ol⟩
    rcases ot with _ | t
    · simpa [processEntries] using ih seen
    · rcases ol with _ | l
      · simpa [processEntries] using ih seen
      · by_cases hmem : pyStrip t ∈ Store.getD seen j
        · simpa [processEntries, hmem] using ih seen
        · rw [List.cons_append, List.cons_append]
          simp only [processEntries, Entry.title_mk, Entry.link_mk]
          rw [if_neg hmem, if_neg hmem, ih]

theorem processJournal_skip_malformed (j : String) (bad : Entry)
    (hbad : bad.title = none ∨ bad.link = none) (pre post : List Entry)
    (seen : Store) :
    (processJournal j (pre ++ bad :: post) seen).2 =
      (processJournal j (pre ++ post) seen).2 ∧
    ∀ k, Store.getD (processJournal j (pre ++ bad :: post) seen).1 k =
      Store.getD (processJournal j (pre ++ post) seen).1 k := by
  have hne : pre ++ bad :: post ≠ [] := by simp
  by_cases h0 : pre ++ post = []
  · rcases List.append_eq_nil.mp h0 with ⟨hp, hq⟩
    subst hp; subst hq
    simp only [List.nil_append]
    rw [processJournal_nil]
    have hne2 : [bad] ≠ ([] : List Entry) := by simp
    have hskip : ∀ s1 : Store, processEntries j s1 [bad] = (s1, []) := by
      intro s1
      simpa using processEntries_skip_malformed j bad hbad [] [] s1
    simp only [processJournal, if_neg hne2]
    rw [hskip]
    refine ⟨rfl, fun k => ?_⟩
    by_cases hs : (Store.find seen j).isSome
    · rw [if_pos hs]
    · rw [if_neg hs]
      by_cases hk : k = j
      · subst hk
        rw [Store.getD_set_self,
          Store.getD_of_find_none seen k (Option.not_isSome_iff_eq_none.mp hs)]
      · rw [Store.getD_set_ne seen j k [] hk]
  · simp only [processJournal, if_neg hne, if_neg h0]
    rw [processEntries_skip_malformed j bad hbad pre post]
    exact ⟨rfl, fun k => rfl⟩

theorem fetch_feed_all_fail (fetch : Nat → Option (List Entry))
    (h : ∀ a, a < RETRY_ATTEMPTS → fetch a = none) :
    fetch_feed fetch RETRY_ATTEMPTS =
      ⟨[], [RETRY_DELAY, RETRY_DELAY], [0, 1, 2]⟩ := by
  have h0 := h 0 (by decide)
  have h1 := h 1 (by decide)
  have h2 := h 2 (by decide)
  show fetchFeedLoop fetch RETRY_ATTEMPTS (List.range RETRY_ATTEMPTS) = _
  rw [show List.range RETRY_ATTEMPTS = [0, 1, 2] from rfl]
  simp [fetchFeedLoop, h0, h1, h2, RETRY_ATTEMPTS, RETRY_DELAY]

/-! ### The claims -/

/-- C1 counterexample: one configured journal whose fetch yields no entries,
run from an absent state file.  The run succeeds, but the persisted mapping
is the empty store — `Store.find [] "J1" = none` — so it does not contain the
journal key, contradicting the claim that the seen-store entry is still
initialised to an empty sequence. -/
theorem spec_C1_counterexample :
    fetch_new_articles [("J1", "u1")] (fun _ => []) true FileState.absent =
      Except.ok (FileState.good [], []) ∧
    Store.find ([] : Store) "J1" = none := by
  exact ⟨rfl, rfl⟩

/-- C1 (amended): when every fetch for a journal yields no entries, the
journal is skipped with `continue` before the seen-store key initialisation
(lines 110-115), so a key absent from the loaded mapping stays absent from
the mapping the run produces. -/
theorem spec_C1_empty_feed_leaves_key_absent
    (reg : List (String × String)) (f : String → List Entry) (s : Store)
    (j : String) (hall : ∀ p ∈ reg, p.1 = j → f p.2 = [])
    (h0 : Store.find s j = none) :
    Store.find (scanFeeds f reg s).1 j = none :=
  scanFeeds_find_none f reg s j hall h0

/-- C1 witness: the amended theorem at the counterexample's input. -/
theorem spec_C1_witness :
    Store.find (scanFeeds (fun _ => []) [("J1", "u1")] []).1 "J1" = none :=
  spec_C1_empty_feed_leaves_key_absent [("J1", "u1")] (fun _ => []) [] "J1"
    (fun _ _ _ => rfl) rfl

/-- C2: if a journal's fetched entry list carries two entries (at distinct
positions) with the same stripped title, well formed, and that title is not
in the journal's loaded seen list, then the run reports exactly one
new-article record with that title for that journal and the journal's seen
sequence afterwards contains the title exactly once. -/
theorem spec_C2_dedup_within_run
    (reg : List (String × String)) (f : String → List Entry) (s0 : Store)
    (j u : String) (hreg : (j, u) ∈ reg)
    (i k : Fin (f u).length) (hik : i ≠ k) (t1 l1 t2 l2 : String)
    (h1t : ((f u).get i).title = some t1) (h1l : ((f u).get i).link = some l1)
    (h2t : ((f u).get k).title = some t2) (h2l : ((f u).get k).link = some l2)
    (heq : pyStrip t1 = pyStrip t2) (hnew : pyStrip t1 ∉ Store.getD s0 j) :
    (newTitlesFor j (scanFeeds f reg s0).2).count (pyStrip t1) = 1 ∧
    (Store.getD (scanFeeds f reg s0).1 j).count (pyStrip t1) = 1 := by
  have he : (f u).get i ∈ f u := List.get_mem (f u) i.1 i.2
  have hmem : pyStrip t1 ∈ Store.getD (scanFeeds f reg s0).1 j :=
    scanFeeds_complete f reg s0 j u _ t1 l1 hreg he h1t h1l
  rw [scanFeeds_getD_append] at hmem
  have hin : pyStrip t1 ∈ newTitlesFor j (scanFeeds f reg s0).2 := by
    rcases List.mem_append.mp hmem with h | h
    · exact absurd h hnew
    · exact h
  have hcount1 : (newTitlesFor j (scanFeeds f reg s0).2).count (pyStrip t1) = 1 :=
    List.count_eq_one_of_mem (scanFeeds_titles_nodup f reg s0 j) hin
  refine ⟨hcount1, ?_⟩
  rw [scanFeeds_getD_append, List.count_append,
    List.count_eq_zero_of_not_mem hnew, hcount1]

/-- C2 witness: a feed carrying `"A"` twice (the second time with surrounding
whitespace and a different link) on an empty store reports it once. -/
theorem spec_C2_witness :
    (newTitlesFor "J" (scanFeeds (fun _ => [⟨some "A", some "lA"⟩,
        ⟨some " A", some "lA2"⟩]) [("J", "u")] []).2).count (pyStrip "A") = 1 ∧
    (Store.getD (scanFeeds (fun _ => [⟨some "A", some "lA"⟩,
        ⟨some " A", some "lA2"⟩]) [("J", "u")] []).1 "J").count
      (pyStrip "A") = 1 :=
  spec_C2_dedup_within_run [("J", "u")]
    (fun _ => [⟨some "A", some "lA"⟩, ⟨some " A", some "lA2"⟩]) [] "J" "u"
    (List.mem_singleton.mpr rfl) ⟨0, by decide⟩ ⟨1, by decide⟩ (by decide)
    "A" "lA" " A" "lA2" rfl rfl rfl rfl (by decide) (by decide)

/-- C3: idempotence — a second scan over the same feed results, starting from
the store the first scan produced, reports no new articles and returns the
store unchanged; consequently a second full `fetch_new_articles` run from the
persisted file yields an empty new-article list and re-persists the same
mapping. -/
theorem spec_C3_idempotent (reg : List (String × String))
    (f : String → List Entry) (s0 : Store) :
    scanFeeds f reg (scanFeeds f reg s0).1 = ((scanFeeds f reg s0).1, []) ∧
    fetch_new_articles reg f true (FileState.good (scanFeeds f reg s0).1) =
      Except.ok (FileState.good (scanFeeds f reg s0).1, []) := by
  refine ⟨scanFeeds_idem f reg s0, ?_⟩
  simp [fetch_new_articles, load_seen_articles, save_seen_articles,
    scanFeeds_idem f reg s0]

/-- C4: ordering — (1) the run's new-article list concatenates per-journal
results in registry order; (2) within one journal the produced records are a
subsequence of the feed's well-formed entries in native order; (3) the spec's
concrete instance: entries `[e1, e2, e3]` with `e2` already seen yield
`[e1, e3]` in that relative order. -/
theorem spec_C4_ordering :
    (∀ (f : String → List Entry) (pre post : List (String × String))
      (seen : Store),
      scanFeeds f (pre ++ post) seen =
        ((scanFeeds f post (scanFeeds f pre seen).1).1,
          (scanFeeds f pre seen).2 ++
            (scanFeeds f post (scanFeeds f pre seen).1).2)) ∧
    (∀ (j : String) (es : List Entry) (seen : Store),
      List.Sublist (processEntries j seen es).2 (es.filterMap (entryKey j))) ∧
    scanFeeds (fun _ => [⟨some "A", some "la"⟩, ⟨some "B", some "lb"⟩,
        ⟨some "C", some "lc"⟩]) [("J", "u")] [("J", ["B"])] =
      ([("J", ["B", "A", "C"])], [("J", "A", "la"), ("J", "C", "lc")]) :=
  ⟨fun f pre post seen => scanFeeds_append f pre post seen,
   fun j es seen => processEntries_sublist j es seen,
   by decide⟩

/-- C5: retry exhaustion — when every attempt fails, `fetch_feed` makes
exactly the 3 configured attempts (indices 0, 1, 2) with a 5-unit sleep
between consecutive attempts and none after the last, and returns an
empty-entries feed instead of raising; and a feed whose resulting entry list
is empty contributes nothing to the run: the scan behaves exactly as if the
feed were not in the registry, so subsequent feeds are still processed. -/
theorem spec_C5_retry_exhaustion :
    (∀ fetch : Nat → Option (List Entry),
      (∀ a, a < RETRY_ATTEMPTS → fetch a = none) →
      fetch_feed fetch RETRY_ATTEMPTS =
        ⟨[], [RETRY_DELAY, RETRY_DELAY], [0, 1, 2]⟩) ∧
    (∀ (pre post : List (String × String)) (j u : String)
      (f : String → List Entry) (seen : Store), f u = [] →
      scanFeeds f (pre ++ (j, u) :: post) seen =
        scanFeeds f (pre ++ post) seen) :=
  ⟨fun fetch h => fetch_feed_all_fail fetch h,
   fun pre post j u f seen hu => scanFeeds_skip_empty f pre post j u hu seen⟩

/-- C5 witness: the always-failing fetch oracle, and a failing feed "B"
between feeds of an otherwise even registry. -/
theorem spec_C5_witness :
    fetch_feed (fun _ => none) RETRY_ATTEMPTS =
      ⟨[], [RETRY_DELAY, RETRY_DELAY], [0, 1, 2]⟩ ∧
    scanFeeds (fun _ => []) ([("A", "ua")] ++ ("B", "ub") :: []) [] =
      scanFeeds (fun _ => []) ([("A", "ua")] ++ []) [] :=
  ⟨spec_C5_retry_exhaustion.1 (fun _ => none) (fun _ _ => rfl),
   spec_C5_retry_exhaustion.2 [("A", "ua")] [] "B" "ub" (fun _ => []) [] rfl⟩

/-- C6: malformed-entry isolation — an entry with a structurally absent title
or link is skipped: the inner loop produces exactly the state and records it
would produce without that entry, and at journal level the new-article list
and every journal's seen sequence are unaffected, so the other well-formed
entries of the same feed are still reported. -/
theorem spec_C6_malformed_entry_isolation
    (j : String) (seen : Store) (pre post : List Entry) (bad : Entry)
    (hbad : bad.title = none ∨ bad.link = none) :
    (∀ s1 : Store, processEntries j s1 (pre ++ bad :: post) =
      processEntries j s1 (pre ++ post)) ∧
    (processJournal j (pre ++ bad :: post) seen).2 =
      (processJournal j (pre ++ post) seen).2 ∧
    ∀ k, Store.getD (processJournal j (pre ++ bad :: post) seen).1 k =
      Store.getD (processJournal j (pre ++ post) seen).1 k :=
  ⟨fun s1 => processEntries_skip_malformed j bad hbad pre post s1,
   (processJournal_skip_malformed j bad hbad pre post seen).1,
   (processJournal_skip_malformed j bad hbad pre post seen).2⟩

/-- C6 witness: an entry with no title between two good entries. -/
theorem spec_C6_witness :
    processEntries "J" [] ([⟨some "A", some "la"⟩] ++ ⟨none, some "x"⟩ ::
        [⟨some "B", some "lb"⟩]) =
      processEntries "J" [] ([⟨some "A", some "la"⟩] ++
        [⟨some "B", some "lb"⟩]) ∧
    (processJournal "J" ([⟨some "A", some "la"⟩] ++ ⟨none, some "x"⟩ ::
        [⟨some "B", some "lb"⟩]) []).2 =
      (processJournal "J" ([⟨some "A", some "la"⟩] ++
        [⟨some "B", some "lb"⟩]) []).2 ∧
    Store.getD (processJournal "J" ([⟨some "A", some "la"⟩] ++
        ⟨none, some "x"⟩ :: [⟨some "B", some "lb"⟩]) []).1 "J" =
      Store.getD (processJournal "J" ([⟨some "A", some "la"⟩] ++
        [⟨some "B", some "lb"⟩]) []).1 "J" := by
  have h := spec_C6_malformed_entry_isolation "J" [] [⟨some "A", some "la"⟩]
    [⟨some "B", some "lb"⟩] ⟨none, some "x"⟩ (Or.inl rfl)
  exact ⟨h.1 [], h.2.1, h.2.2 "J"⟩

/-- C7 counterexample: an unreadable (present but not openable) state file
makes the whole run raise — a state-read failure that is **not** absorbed —
refuting the part of the claim that says all state-read failures are
absorbed and that the mail transport is the single escalated failure. -/
theorem spec_C7_counterexample :
    (main_run [] (fun _ => []) true true FileState.unreadable).2 =
      Except.error () := rfl

/-- C7 (amended): a transport failure in `send_email` is re-raised, and the
updated seen mapping has by then already been persisted, so a following run
over the same feeds reports nothing; a state-write failure, any feed-fetch or
entry-parse failure, and the absorbed state-read failures (absent or corrupt
file) leave the run succeeding — but an unreadable state file also escalates
(see the counterexample), so transport failure is not the only escaping
failure. -/
theorem spec_C7_transport_failure_escalates
    (reg : List (String × String)) (f : String → List Entry)
    (file : FileState) (s0 : Store) (writeOk transportOk : Bool)
    (hload : load_seen_articles file = Except.ok s0) :
    ((scanFeeds f reg s0).2 ≠ [] →
      main_run reg f true false file =
        (FileState.good (scanFeeds f reg s0).1, Except.error ())) ∧
    (main_run reg f writeOk true file).2 =
      Except.ok (scanFeeds f reg s0).2 ∧
    main_run reg f writeOk transportOk
        (FileState.good (scanFeeds f reg s0).1) =
      (FileState.good (scanFeeds f reg s0).1, Except.ok []) := by
  refine ⟨?_, ?_, ?_⟩
  · intro hne
    simp [main_run, fetch_new_articles, hload, send_email, hne,
      save_seen_articles]
  · by_cases hn : (scanFeeds f reg s0).2 = [] <;>
      simp [main_run, fetch_new_articles, hload, send_email, hn,
        save_seen_articles]
  · cases writeOk <;>
      simp [main_run, fetch_new_articles, load_seen_articles,
        scanFeeds_idem f reg s0, send_email, save_seen_articles]

/-- C7 witness: one journal with one new article; transport down on the first
run, so the run raises but the store is persisted; the next run reports
nothing. -/
theorem spec_C7_witness :
    main_run [("J", "u")] (fun _ => [⟨some "A", some "la"⟩]) true false
        FileState.absent =
      (FileState.good (scanFeeds (fun _ => [⟨some "A", some "la"⟩])
        [("J", "u")] []).1, Except.error ()) ∧
    (main_run [("J", "u")] (fun _ => [⟨some "A", some "la"⟩]) true true
        FileState.absent).2 =
      Except.ok (scanFeeds (fun _ => [⟨some "A", some "la"⟩])
        [("J", "u")] []).2 ∧
    main_run [("J", "u")] (fun _ => [⟨some "A", some "la"⟩]) true true
        (FileState.good (scanFeeds (fun _ => [⟨some "A", some "la"⟩])
          [("J", "u")] []).1) =
      (FileState.good (scanFeeds (fun _ => [⟨some "A", some "la"⟩])
        [("J", "u")] []).1, Except.ok []) := by
  have h := spec_C7_transport_failure_escalates [("J", "u")]
    (fun _ => [⟨some "A", some "la"⟩]) FileState.absent [] true true rfl
  exact ⟨h.1 (by decide), h.2.1, h.2.2⟩

/-- C8 counterexample: a present-but-unreadable state file makes
`load_seen_articles` raise (the `except` clause catches only
`json.JSONDecodeError`, not the `OSError` from `open`), refuting "never
raises". -/
theorem spec_C8_counterexample :
    load_seen_articles FileState.unreadable = Except.error () := rfl

/-- C8 (amended): `load_seen_articles` returns an empty mapping when the
state file is absent or present but unparseable, and returns the stored
mapping when it parses; but when the file is present and unreadable the
exception propagates. -/
theorem spec_C8_state_read_recovery :
    load_seen_articles FileState.absent = Except.ok [] ∧
    load_seen_articles FileState.corrupt = Except.ok [] ∧
    load_seen_articles FileState.unreadable = Except.error () ∧
    ∀ s, load_seen_articles (FileState.good s) = Except.ok s :=
  ⟨rfl, rfl, rfl, fun s => rfl⟩

/-- C9: whitespace normalisation — every reported title and link is invariant
under stripping; if every title in the loaded store is stripped, so is every
title in the resulting store; and an entry whose title differs from an
already-stored (stripped) title only by surrounding whitespace is never
reported as new. -/
theorem spec_C9_whitespace_normalization
    (reg : List (String × String)) (f : String → List Entry) (s0 : Store) :
    (∀ r ∈ (scanFeeds f reg s0).2,
      pyStrip r.2.1 = r.2.1 ∧ pyStrip r.2.2 = r.2.2) ∧
    ((∀ k t, t ∈ Store.getD s0 k → pyStrip t = t) →
      ∀ k t, t ∈ Store.getD (scanFeeds f reg s0).1 k → pyStrip t = t) ∧
    (∀ j t s', s' ∈ Store.getD s0 j → pyStrip t = pyStrip s' →
      pyStrip s' = s' → pyStrip t ∉ newTitlesFor j (scanFeeds f reg s0).2) := by
  refine ⟨fun r hr => scanFeeds_reported_stripped f reg s0 r hr,
    fun h k t ht => scanFeeds_stored_stripped f reg s0 h k t ht,
    fun j t s' hs' heq hfix => ?_⟩
  rw [heq, hfix]
  exact scanFeeds_seen_not_new f reg s0 j s' hs'

/-- C9 witness: a feed whose entry carries surrounding whitespace, over a
store holding the stripped title "B"; the record is stripped, the store stays
stripped, and a whitespace variant " B " of the stored "B" is not reported. -/
theorem spec_C9_witness :
    (pyStrip "A" = "A" ∧ pyStrip "l" = "l") ∧
    pyStrip "B" = "B" ∧
    pyStrip " B " ∉ newTitlesFor "J"
      (scanFeeds (fun _ => [⟨some " A ", some " l "⟩]) [("J", "u")]
        [("J", ["B"])]).2 := by
  have h := spec_C9_whitespace_normalization [("J", "u")]
    (fun _ => [⟨some " A ", some " l "⟩]) [("J", ["B"])]
  have hstore : ∀ k t, t ∈ Store.getD [("J", ["B"])] k → pyStrip t = t := by
    intro k t ht
    by_cases hk : ("J" : String) = k
    · subst hk
      simp [Store.getD, Store.find] at ht
      subst ht
      decide
    · simp [Store.getD, Store.find, hk] at ht
  exact ⟨h.1 ("J", "A", "l") (by decide),
    h.2.1 hstore "J" "B" (by decide),
    h.2.2 "J" " B " "B" (by decide) (by decide) (by decide)⟩

/-- C10: seen/new correspondence — for a journal key present in the loaded
store, the store after the scan maps it to the old sequence with exactly the
titles of that journal's new-article records appended, in report order, and
those reported titles are pairwise distinct. -/
theorem spec_C10_seen_new_correspondence
    (reg : List (String × String)) (f : String → List Entry) (s0 : Store)
    (j : String) (ts : List String) (h : Store.find s0 j = some ts) :
    Store.find (scanFeeds f reg s0).1 j =
      some (ts ++ newTitlesFor j (scanFeeds f reg s0).2) ∧
    (newTitlesFor j (scanFeeds f reg s0).2).Nodup := by
  refine ⟨?_, scanFeeds_titles_nodup f reg s0 j⟩
  have hsome : (Store.find s0 j).isSome := by rw [h]; rfl
  have hgd : Store.getD s0 j = ts := by simp [Store.getD, h]
  rw [Store.find_eq_getD_of_isSome _ _ (scanFeeds_isSome f reg s0 j hsome),
    scanFeeds_getD_append, hgd]

/-- C10 witness: store `{"J": ["X"]}` with a feed delivering one new entry. -/
theorem spec_C10_witness :
    Store.find (scanFeeds (fun _ => [⟨some "A", some "la"⟩]) [("J", "u")]
        [("J", ["X"])]).1 "J" =
      some (["X"] ++ newTitlesFor "J"
        (scanFeeds (fun _ => [⟨some "A", some "la"⟩]) [("J", "u")]
          [("J", ["X"])]).2) ∧
    (newTitlesFor "J" (scanFeeds (fun _ => [⟨some "A", some "la"⟩])
      [("J", "u")] [("J", ["X"])]).2).Nodup :=
  spec_C10_seen_new_correspondence [("J", "u")]
    (fun _ => [⟨some "A", some "la"⟩]) [("J", ["X"])] "J" ["X"] (by decide)
